import Mathlib

/-!
Verification of the text-chunking subsystem (src/ingestion/chunker.py).

Texts are modelled as lists of characters.  Python operations that can
raise (str.split with an empty separator, indexing out of range, reading
an unassigned local variable) are modelled with Except.  The fixed-size
sliding-window loop, whose cursor need not advance, takes an explicit
fuel argument; running out of fuel is reported as PyErr.fuelExhausted.
-/

namespace Mneme

/-- Python strings are modelled as lists of characters. -/
abbrev Str := List Char

/-- Characters removed by Python str.strip. -/
def isPySpace (c : Char) : Bool :=
  c = ' ' || c = '\t' || c = '\n' || c = '\r' || c = '\x0b' || c = '\x0c'

/-- Python str.lstrip. -/
def pyLStrip (s : Str) : Str := s.dropWhile isPySpace

/-- Python str.rstrip. -/
def pyRStrip (s : Str) : Str := (s.reverse.dropWhile isPySpace).reverse

/-- Python str.strip. -/
def pyStrip (s : Str) : Str := pyLStrip (pyRStrip s)

/-- Exceptions the chunker code can raise, plus fuel exhaustion for the
fixed-strategy while loop (which models non-termination). -/
inductive PyErr where
  | valueError
  | unboundLocal
  | indexError
  | fuelExhausted
deriving DecidableEq, Repr

/-- Scanner for Python str.split with a non-empty separator.  The fuel is
always at least the length of the remaining text, so the zero-fuel case is
unreachable; it returns the remainder so that concatenation lemmas hold
unconditionally. -/
def pySplitGo (sep : Str) : Nat → Str → Str → List Str
  | 0, s, acc => [acc.reverse ++ s]
  | fuel+1, s, acc =>
    if sep.isPrefixOf s then
      acc.reverse :: pySplitGo sep fuel (s.drop sep.length) []
    else
      match s with
      | [] => [acc.reverse]
      | c :: rest => pySplitGo sep fuel rest (c :: acc)

/-- Python str.split with a non-empty separator. -/
def pySplit (sep s : Str) : List Str :=
  pySplitGo sep (s.length + 1) s []

/-- Re-append the separator to every split part except the last
(chunker.py lines 182-185). -/
def withSep (sep : Str) : List Str → List Str
  | [] => []
  | [p] => [p]
  | p :: q :: rest => (p ++ sep) :: withSep sep (q :: rest)

/-- Greedy re-merge of consecutive pieces up to the size limit
(chunker.py lines 179-195). -/
def mergeGo (size : Nat) : List Str → Str → List Str
  | [], cur => if cur.isEmpty then [] else [cur]
  | p :: rest, cur =>
    if cur.length + p.length ≤ size then
      mergeGo size rest (cur ++ p)
    else
      if cur.isEmpty then mergeGo size rest p
      else cur :: mergeGo size rest p

/-- Process one fragment in one separator round of the recursive strategy
(chunker.py lines 173-197).  Python str.split raises ValueError on an
empty separator, which is reachable for oversized separator-free
fragments. -/
def splitMerge (size : Nat) (sep frag : Str) : Except PyErr (List Str) :=
  if frag.length ≤ size then .ok [frag]
  else if sep.isEmpty then .error .valueError
  else .ok (mergeGo size (withSep sep (pySplit sep frag)) [])

/-- One separator round over the working fragment list. -/
def roundGo (size : Nat) (sep : Str) : List Str → Except PyErr (List Str)
  | [] => .ok []
  | f :: rest => do
    let m ← splitMerge size sep f
    let r ← roundGo size sep rest
    pure (m ++ r)

/-- Every fragment is within the size limit (chunker.py line 202). -/
def allSmall (size : Nat) (frags : List Str) : Bool :=
  frags.all (fun f => f.length ≤ size)

/-- The separator loop of the recursive strategy, with early exit once
every fragment is within the limit (chunker.py lines 170-203). -/
def roundsGo (size : Nat) : List Str → List Str → Except PyErr (List Str)
  | [], frags => .ok frags
  | sep :: rest, frags => do
    let nxt ← roundGo size sep frags
    if allSmall size nxt then pure nxt
    else roundsGo size rest nxt

/-- The separator priority list (chunker.py lines 68-79). -/
def separators : List Str :=
  [ ("\n\n\n").data, ("\n\n").data, ("\n").data, (". ").data, ("! ").data,
    ("? ").data, ("; ").data, (", ").data, (" ").data, ("").data ]

/-- Scanner for Python str.find(sub, pos). -/
def pyFindGo (text sub : Str) : Nat → Nat → Option Nat
  | 0, _ => none
  | fuel+1, pos =>
    if sub.isPrefixOf (text.drop pos) then some pos
    else pyFindGo text sub fuel (pos + 1)

/-- Python str.find(sub, pos): the smallest index at or after pos where
sub occurs, or none (Python: -1). -/
def pyFind (text sub : Str) (pos : Nat) : Option Nat :=
  pyFindGo text sub (text.length + 1 - pos) pos

/-- Metadata values: the chunker stores ints and strings; caller-supplied
values of any other shape are represented opaquely. -/
inductive PyVal where
  | pInt (n : Int)
  | pStr (s : Str)
  | pOther (n : Nat)
deriving DecidableEq, Repr

/-- A Python dict with string keys, modelled extensionally. -/
abbrev Md := String → Option PyVal

def kChunkIndex : String := "chunk_index"

def kTotalChunks : String := "total_chunks"

def kChunkingStrategy : String := "chunking_strategy"

def sPage : String := "page"

def sRecursive : String := "recursive"

def sFixed : String := "fixed"

def sSemantic : String := "semantic"

/-- The TextChunk dataclass (chunker.py lines 19-28).  Offsets are Python
ints: the fixed strategy can compute negative positions. -/
structure TextChunk where
  content : Str
  chunk_id : Str
  start_char : Int
  end_char : Int
  metadata : Md
  token_count : Option Nat

/-- Token estimate: len(text) // 4 (chunker.py line 356). -/
def estimateTokens (s : Str) : Nat := s.length / 4

/-- Chunk id for indexed chunks. -/
def chunkIdOf (noteId : Str) (i : Nat) : Str :=
  noteId ++ ("_chunk_").data ++ (Nat.repr i).data

/-- Metadata merge for the page strategy (chunker.py lines 145-150). -/
def metaPage (md : Md) : Md := fun k =>
  if k = kChunkIndex then some (.pInt 0)
  else if k = kTotalChunks then some (.pInt 1)
  else if k = kChunkingStrategy then some (.pStr sPage.data)
  else md k

/-- Metadata merge for the recursive strategy (chunker.py lines 223-228). -/
def metaRecursive (md : Md) (i total : Nat) : Md := fun k =>
  if k = kChunkIndex then some (.pInt i)
  else if k = kTotalChunks then some (.pInt total)
  else if k = kChunkingStrategy then some (.pStr sRecursive.data)
  else md k

/-- Metadata merge for the fixed strategy (chunker.py lines 270-274). -/
def metaFixed (md : Md) (i : Nat) : Md := fun k =>
  if k = kChunkIndex then some (.pInt i)
  else if k = kChunkingStrategy then some (.pStr sFixed.data)
  else md k

/-- Metadata merge for the semantic strategy (chunker.py lines 318-322). -/
def metaSemantic (md : Md) (i : Nat) : Md := fun k =>
  if k = kChunkIndex then some (.pInt i)
  else if k = kChunkingStrategy then some (.pStr sSemantic.data)
  else md k

/-- The page strategy (chunker.py lines 121-155). -/
def pageChunk (md : Md) (noteId text : Str) : List TextChunk :=
  let t := pyStrip text
  if t.isEmpty then []
  else
    [{ content := t
     , chunk_id := noteId ++ ("_page").data
     , start_char := 0
     , end_char := (t.length : Int)
     , metadata := metaPage md
     , token_count := some (estimateTokens t) }]

/-- Offset resolution of the recursive emission loop: find the trimmed
fragment at or after the cursor, falling back to the cursor when the
search fails (chunker.py lines 213-215). -/
def resolvePos (text ct : Str) (pos : Nat) : Nat :=
  match pyFind text ct pos with
  | some r => r
  | none => pos

/-- Emission loop of the recursive strategy (chunker.py lines 206-233):
enumerate fragments, skip whitespace-only ones keeping their index, and
locate each trimmed fragment by forward search with fallback. -/
def emitGo (text : Str) (md : Md) (noteId : Str) (total : Nat) :
    List Str → Nat → Nat → List TextChunk
  | [], _, _ => []
  | f :: rest, i, pos =>
    let ct := pyStrip f
    if ct.isEmpty then emitGo text md noteId total rest (i+1) pos
    else
      let s := resolvePos text ct pos
      let e := s + ct.length
      { content := ct
      , chunk_id := chunkIdOf noteId i
      , start_char := (s : Int)
      , end_char := (e : Int)
      , metadata := metaRecursive md i total
      , token_count := some (estimateTokens ct) } :: emitGo text md noteId total rest (i+1) e

/-- The recursive strategy (chunker.py lines 157-236). -/
def recursiveChunk (size : Nat) (md : Md) (noteId text : Str) :
    Except PyErr (List TextChunk) := do
  let frags ← roundsGo size separators [text]
  pure (emitGo text md noteId frags.length frags 0 0)

/-- Python sequence indexing with negative wrap-around; IndexError when
out of range. -/
def pyIndex (s : Str) (i : Int) : Except PyErr Char :=
  if 0 ≤ i then
    if i < (s.length : Int) then .ok (s.getD i.toNat ' ') else .error .indexError
  else
    if -(s.length : Int) ≤ i then .ok (s.getD (i + (s.length : Int)).toNat ' ')
    else .error .indexError

/-- Effective index of a Python slice bound. -/
def sliceIdx (len : Nat) (i : Int) : Nat :=
  if 0 ≤ i then min i.toNat len else (i + (len : Int)).toNat

/-- Python slicing s[a:b]. -/
def pySlice (s : Str) (a b : Int) : Str :=
  (s.take (sliceIdx s.length b)).drop (sliceIdx s.length a)

/-- The break-point characters of the fixed strategy (chunker.py line 258). -/
def isBoundaryChar (c : Char) : Bool :=
  c = ' ' || c = '.' || c = '!' || c = '?' || c = '\n'

/-- Backward search for a break point: i runs over
range(min(50, end - start)) and the first hit snaps end to end - i + 1
(chunker.py lines 255-260). -/
def snapGo (text : Str) (e : Int) : Nat → Nat → Except PyErr (Option Int)
  | 0, _ => .ok none
  | rem+1, i => do
    let c ← pyIndex text (e - (i : Int))
    if isBoundaryChar c then pure (some (e - (i : Int) + 1))
    else snapGo text e rem (i + 1)

/-- Window-end computation of one fixed-strategy iteration
(chunker.py lines 252-260). -/
def computeEnd (text : Str) (size : Nat) (start : Int) : Except PyErr Int :=
  let e := start + (size : Int)
  if e < (text.length : Int) then do
    match ← snapGo text e (min 50 (e - start).toNat) 0 with
    | some e2 => pure e2
    | none => pure e
  else pure e

/-- The fixed-strategy while loop (chunker.py lines 251-285), indexed by
fuel since the cursor need not advance. -/
def fixedLoop (size overlap : Nat) (md : Md) (noteId text : Str) :
    Nat → Int → Nat → Except PyErr (List TextChunk)
  | 0, _, _ => .error .fuelExhausted
  | fuel+1, start, idx => do
    let e ← computeEnd text size start
    let ct := pyStrip (pySlice text start e)
    let emitted : List TextChunk :=
      if ct.isEmpty then []
      else
        [{ content := ct
         , chunk_id := chunkIdOf noteId idx
         , start_char := start
         , end_char := e
         , metadata := metaFixed md idx
         , token_count := some (estimateTokens ct) }]
    let idx2 := if ct.isEmpty then idx else idx + 1
    let start2 := e - (overlap : Int)
    if start2 < (text.length : Int) then do
      let rest ← fixedLoop size overlap md noteId text fuel start2 idx2
      pure (emitted ++ rest)
    else pure emitted

/-- The fixed strategy (chunker.py lines 238-288). -/
def fixedChunk (fuel size overlap : Nat) (md : Md) (noteId text : Str) :
    Except PyErr (List TextChunk) :=
  if (0 : Int) < (text.length : Int) then
    fixedLoop size overlap md noteId text fuel 0 0
  else .ok []

/-- Sentence-ending characters of the semantic-strategy regex. -/
def isSentEnd (c : Char) : Bool := c = '.' || c = '!' || c = '?'

/-- Scanner for re.split with lookbehind [.!?] followed by a greedy
whitespace run (chunker.py line 300).  inWs is true while consuming a
matched whitespace run; prev is the previously scanned character. -/
def semSplitGo : Str → Char → Bool → Str → List Str
  | [], _, _, acc => [acc.reverse]
  | c :: rest, prev, inWs, acc =>
    if inWs then
      if isPySpace c then semSplitGo rest c true acc
      else semSplitGo rest c false [c]
    else
      if isPySpace c && isSentEnd prev then
        acc.reverse :: semSplitGo rest c true []
      else semSplitGo rest c false (c :: acc)

/-- Sentence splitting of the semantic strategy. -/
def semSplit (text : Str) : List Str :=
  semSplitGo text ' ' false []

/-- The sentence-accumulation loop of the semantic strategy
(chunker.py lines 302-346).  When the first sentence alone exceeds the
limit, the flush branch reads the local chunk_text before any assignment
(line 329), an UnboundLocalError; the buffer is empty exactly then. -/
def semLoop (size : Nat) (md : Md) (noteId : Str) :
    List Str → Nat → Str → Nat → Except PyErr (List TextChunk)
  | [], cs, cur, idx =>
    if cur.isEmpty then .ok []
    else
      let ct := pyStrip cur
      .ok [{ content := ct
           , chunk_id := chunkIdOf noteId idx
           , start_char := (cs : Int)
           , end_char := (cs + ct.length : Nat)
           , metadata := metaSemantic md idx
           , token_count := some (estimateTokens ct) }]
  | s :: rest, cs, cur, idx =>
    if cur.length + s.length ≤ size then
      semLoop size md noteId rest cs (cur ++ s ++ [' ']) idx
    else if cur.isEmpty then .error .unboundLocal
    else
      let ct := pyStrip cur
      let c : TextChunk :=
        { content := ct
        , chunk_id := chunkIdOf noteId idx
        , start_char := (cs : Int)
        , end_char := (cs + ct.length : Nat)
        , metadata := metaSemantic md idx
        , token_count := some (estimateTokens ct) }
      do
        let rest2 ← semLoop size md noteId rest (cs + ct.length + 1) (s ++ [' ']) (idx + 1)
        pure (c :: rest2)

/-- The semantic strategy (chunker.py lines 290-349). -/
def semanticChunk (size : Nat) (md : Md) (noteId text : Str) :
    Except PyErr (List TextChunk) :=
  semLoop size md noteId (semSplit text) 0 [] 0

/-- Chunker configuration (chunker.py lines 62-65). -/
structure ChunkConfig where
  chunk_size : Nat
  chunk_overlap : Nat
  strategy : String

/-- Strategy dispatch of chunk_text (chunker.py lines 86-119); unknown
strategies fall through to the page strategy. -/
def chunkText (fuel : Nat) (cfg : ChunkConfig) (md : Md) (noteId text : Str) :
    Except PyErr (List TextChunk) :=
  if cfg.strategy = sPage then .ok (pageChunk md noteId text)
  else if cfg.strategy = sRecursive then recursiveChunk cfg.chunk_size md noteId text
  else if cfg.strategy = sFixed then
    fixedChunk fuel cfg.chunk_size cfg.chunk_overlap md noteId text
  else if cfg.strategy = sSemantic then semanticChunk cfg.chunk_size md noteId text
  else .ok (pageChunk md noteId text)

/-- The empty caller metadata mapping. -/
def mdNone : Md := fun _ => none

/-- C1: chunk_text is claimed total, but the recursive strategy reaches
Python str.split with the empty separator on any oversized separator-free
fragment, raising ValueError. -/
theorem c1_recursive_raises :
    chunkText 0 ⟨100, 200, sRecursive⟩ mdNone [] (List.replicate 101 'a') =
      .error .valueError := by
  rfl

/-- A separator starting with a character other than a never occurs in
a replicate of a. -/
theorem noOcc_replicate (c a : Char) (cs : Str) (h : c ≠ a) (n i : Nat) :
    (c :: cs).isPrefixOf ((List.replicate n a).drop i) = false := by
  rw [List.drop_replicate]
  cases m : n - i with
  | zero => rfl
  | succ k =>
    rw [List.replicate_succ]
    simp only [List.isPrefixOf, Bool.and_eq_false_iff]
    left
    simp [h]

/-- If the separator never occurs, the split scanner returns the whole
input as a single part. -/
theorem pySplitGo_noOcc (sep : Str) :
    ∀ fuel s acc, (∀ i, sep.isPrefixOf (s.drop i) = false) →
      pySplitGo sep fuel s acc = [acc.reverse ++ s] := by
  intro fuel
  induction fuel with
  | zero => intro s acc _; rfl
  | succ m ih =>
    intro s acc h
    have h0 : sep.isPrefixOf s = false := by simpa using h 0
    simp only [pySplitGo, h0, Bool.false_eq_true, if_false]
    cases s with
    | nil => simp
    | cons c rest =>
      show pySplitGo sep m rest (c :: acc) = [acc.reverse ++ c :: rest]
      rw [ih rest (c :: acc) (fun i => by simpa using h (i + 1))]
      simp

/-- An oversized fragment in which the (non-empty) separator never occurs
passes a round untouched. -/
theorem splitMerge_noOcc (size : Nat) (sep frag : Str) (hbig : size < frag.length)
    (hne : sep ≠ []) (h : ∀ i, sep.isPrefixOf (frag.drop i) = false) :
    splitMerge size sep frag = .ok [frag] := by
  have hfrag : frag.isEmpty = false := by
    cases frag with
    | nil => simp at hbig
    | cons c r => rfl
  rw [splitMerge, if_neg (by omega), if_neg (by simpa using hne)]
  rw [pySplit, pySplitGo_noOcc sep _ frag [] h]
  simp only [List.reverse_nil, List.nil_append, withSep]
  simp only [mergeGo, List.isEmpty_nil, List.length_nil, Nat.zero_add, hfrag,
    Bool.false_eq_true, if_false, if_true]
  rw [if_neg (by omega)]

/-- An oversized fragment free of every non-empty separator drives the
recursive separator loop into the empty separator, raising ValueError. -/
theorem roundsGo_noOcc (size : Nat) (frag : Str) (hbig : size < frag.length) :
    ∀ seps, ([] : Str) ∈ seps →
      (∀ sep ∈ seps, sep ≠ [] → ∀ i, sep.isPrefixOf (frag.drop i) = false) →
      roundsGo size seps [frag] = .error .valueError := by
  intro seps
  induction seps with
  | nil => intro hmem; simp at hmem
  | cons sep rest ih =>
    intro hmem hsep
    by_cases hemp : sep = ([] : Str)
    · subst hemp
      rw [roundsGo]
      have hsm : splitMerge size [] frag = .error .valueError := by
        rw [splitMerge, if_neg (by omega)]
        rfl
      simp only [roundGo, hsm]
      rfl
    · rw [roundsGo]
      have hr : roundGo size sep [frag] = .ok [frag] := by
        have hs := splitMerge_noOcc size sep frag hbig hemp
          (hsep sep (by simp) hemp)
        simp only [roundGo, hs]
        rfl
      rw [hr]
      have hall : allSmall size [frag] = false := by
        simp only [allSmall, List.all_cons, List.all_nil, Bool.and_true]
        simpa using (by omega : ¬ frag.length ≤ size)
      show (if allSmall size [frag] = true then (pure [frag] : Except PyErr (List Str))
            else roundsGo size rest [frag]) = Except.error PyErr.valueError
      rw [hall]
      simp only [Bool.false_eq_true, if_false]
      have hmem2 : ([] : Str) ∈ rest := by
        rcases List.mem_cons.mp hmem with h0 | h0
        · exact absurd h0.symm hemp
        · exact h0
      exact ih hmem2 (fun sp hsp => hsep sp (by simp [hsp]))

/-- C2: Scenario C (a single 2000-character word, max_chunk_size=100,
strategy=recursive) is claimed to yield 20 chunks; the code instead
raises ValueError at the final, empty separator. -/
theorem c2_scenario_c_raises :
    chunkText 0 ⟨100, 200, sRecursive⟩ mdNone [] (List.replicate 2000 'a') =
      .error .valueError := by
  have hdisp : chunkText 0 ⟨100, 200, sRecursive⟩ mdNone [] (List.replicate 2000 'a') =
      recursiveChunk 100 mdNone [] (List.replicate 2000 'a') := rfl
  rw [hdisp, recursiveChunk]
  have h : roundsGo 100 separators [List.replicate 2000 'a'] = .error .valueError := by
    apply roundsGo_noOcc 100 (List.replicate 2000 'a')
      (by rw [List.length_replicate]; omega) separators (by simp [separators])
    intro sep hmem hne i
    simp only [separators, List.mem_cons] at hmem
    rcases hmem with h0 | h0 | h0 | h0 | h0 | h0 | h0 | h0 | h0 | h0 | h0
    all_goals first
      | (exact absurd h0 (by simp))
      | (subst h0; exact noOcc_replicate _ _ _ (by decide) _ _)
      | (exact absurd h0 hne)
  rw [h]
  rfl

/-- C3: on the empty string the semantic strategy emits one chunk whose
content is empty, instead of the claimed empty sequence. -/
theorem c3_semantic_empty_chunk :
    Except.map (List.map TextChunk.content)
      (chunkText 0 ⟨1000, 200, sSemantic⟩ mdNone [] []) = .ok [[]] := by
  rfl

/-- One stuck iteration of the fixed loop on the C8 text: the snapped end
is 3, a chunk is emitted, and the cursor returns to 3 - 3 = 0. -/
theorem c8_step (n : Nat) (idx : Nat) :
    fixedLoop 10 3 mdNone [] (("ab cdefghijklmnop").data) (n+1) 0 idx =
      Except.bind (fixedLoop 10 3 mdNone [] (("ab cdefghijklmnop").data) n 0 (idx+1))
        (fun rest => .ok
          ({ content := ("ab").data
           , chunk_id := chunkIdOf [] idx
           , start_char := 0
           , end_char := 3
           , metadata := metaFixed mdNone idx
           , token_count := some 0 } :: rest)) := by
  rfl

/-- C8: with max_chunk_size=10 and overlap=3 (so overlap < max_chunk_size)
the fixed strategy loops forever on this input: the boundary snap sets the
window end to 3, the cursor moves to 3 - 3 = 0, the state repeats, and the
loop exhausts every fuel bound. -/
theorem c8_fixed_loop_stuck :
    (∀ fuel idx, fixedLoop 10 3 mdNone [] (("ab cdefghijklmnop").data) fuel 0 idx =
        .error .fuelExhausted) ∧
      computeEnd (("ab cdefghijklmnop").data) 10 0 = .ok 3 ∧
      (3 : Int) - 3 = 0 ∧ 3 < 10 := by
  refine ⟨?_, rfl, rfl, by decide⟩
  intro fuel
  induction fuel with
  | zero => intro idx; rfl
  | succ n ih =>
    intro idx
    rw [c8_step n idx, ih (idx+1)]
    rfl

/-- C9: an unrecognized strategy string dispatches to the page strategy,
so chunk_text gives exactly the chunks of strategy page. -/
theorem c9_unknown_strategy_is_page (fuel size ov : Nat) (strat : String)
    (md : Md) (noteId text : Str)
    (h1 : strat ≠ sPage) (h2 : strat ≠ sRecursive)
    (h3 : strat ≠ sFixed) (h4 : strat ≠ sSemantic) :
    chunkText fuel ⟨size, ov, strat⟩ md noteId text =
      chunkText fuel ⟨size, ov, sPage⟩ md noteId text := by
  simp [chunkText, h1, h2, h3, h4]

/-- Witness for C9 at the concrete strategy string of Scenario E. -/
theorem c9_unknown_strategy_is_page_witness :
    chunkText 0 ⟨5, 1, ("bogus")⟩ mdNone [] (("hi there").data) =
      chunkText 0 ⟨5, 1, sPage⟩ mdNone [] (("hi there").data) := by
  exact c9_unknown_strategy_is_page 0 5 1 ("bogus") mdNone [] (("hi there").data)
    (by decide) (by decide) (by decide) (by decide)

/-- Bind of a success in the Except monad. -/
theorem bindOk {ε α β : Type} (v : α) (f : α → Except ε β) :
    (Except.ok v >>= f) = f v := rfl

/-- Bind of a failure in the Except monad. -/
theorem bindError {ε α β : Type} (e : ε) (f : α → Except ε β) :
    ((Except.error e : Except ε α) >>= f) = Except.error e := rfl

/-- Every chunk the page strategy emits has the page metadata merge. -/
theorem pageChunk_meta (md : Md) (noteId text : Str) :
    ∀ c ∈ pageChunk md noteId text, c.metadata = metaPage md := by
  intro c hc
  rw [pageChunk] at hc
  by_cases he : (pyStrip text).isEmpty
  · simp [he] at hc
  · simp only [he, Bool.false_eq_true, if_false, List.mem_singleton] at hc
    subst hc
    rfl

/-- Every chunk the recursive emission loop produces has the recursive
metadata merge for some index. -/
theorem emitGo_meta (text : Str) (md : Md) (noteId : Str) (total : Nat) :
    ∀ frags i pos, ∀ c ∈ emitGo text md noteId total frags i pos,
      ∃ j, c.metadata = metaRecursive md j total := by
  intro frags
  induction frags with
  | nil => intro i pos c hc; simp [emitGo] at hc
  | cons f rest ih =>
    intro i pos c hc
    rw [emitGo] at hc
    by_cases he : (pyStrip f).isEmpty
    · simp only [he, if_true] at hc
      exact ih (i+1) pos c hc
    · simp only [he, Bool.false_eq_true, if_false, List.mem_cons] at hc
      rcases hc with hc | hc
      · exact ⟨i, by rw [hc]⟩
      · exact ih (i+1) _ c hc

/-- Every chunk an ok run of the fixed loop produces has the fixed
metadata merge for some index. -/
theorem fixedLoop_meta (size overlap : Nat) (md : Md) (noteId text : Str) :
    ∀ fuel start idx l,
      fixedLoop size overlap md noteId text fuel start idx = .ok l →
      ∀ c ∈ l, ∃ j, c.metadata = metaFixed md j := by
  intro fuel
  induction fuel with
  | zero => intro start idx l h c hc; exact absurd h (by rw [fixedLoop]; simp)
  | succ n ih =>
    intro start idx l h c hc
    rw [fixedLoop] at h
    cases hce : computeEnd text size start with
    | error er => rw [hce, bindError] at h; exact absurd h (by simp)
    | ok e =>
      rw [hce, bindOk] at h
      cases hct : (pyStrip (pySlice text start e)).isEmpty with
      | true =>
        simp only [hct, if_true] at h
        by_cases hlt : e - (overlap : Int) < (text.length : Int)
        · rw [if_pos hlt] at h
          cases hrec : fixedLoop size overlap md noteId text n (e - (overlap : Int)) idx with
          | error er => rw [hrec, bindError] at h; exact absurd h (by simp)
          | ok rest =>
            rw [hrec, bindOk] at h
            have hl : l = rest := by
              have := h
              simp only [pure, Except.pure, List.nil_append, Except.ok.injEq] at this
              exact this.symm
            subst hl
            exact ih _ _ _ hrec c hc
        · rw [if_neg hlt] at h
          have hl : l = [] := by
            simp only [pure, Except.pure, Except.ok.injEq] at h
            exact h.symm
          subst hl
          simp at hc
      | false =>
        simp only [hct, Bool.false_eq_true, if_false] at h
        by_cases hlt : e - (overlap : Int) < (text.length : Int)
        · rw [if_pos hlt] at h
          cases hrec : fixedLoop size overlap md noteId text n (e - (overlap : Int)) (idx + 1) with
          | error er => rw [hrec, bindError] at h; exact absurd h (by simp)
          | ok rest =>
            rw [hrec, bindOk] at h
            have hl : ({ content := pyStrip (pySlice text start e)
                       , chunk_id := chunkIdOf noteId idx
                       , start_char := start
                       , end_char := e
                       , metadata := metaFixed md idx
                       , token_count := some (estimateTokens (pyStrip (pySlice text start e))) } :
                         TextChunk) :: rest = l := by
              simpa only [pure, Except.pure, List.singleton_append, Except.ok.injEq] using h
            rw [← hl] at hc
            rcases List.mem_cons.mp hc with hc2 | hc2
            · exact ⟨idx, by rw [hc2]⟩
            · exact ih _ _ _ hrec c hc2
        · rw [if_neg hlt] at h
          have hl : ({ content := pyStrip (pySlice text start e)
                     , chunk_id := chunkIdOf noteId idx
                     , start_char := start
                     , end_char := e
                     , metadata := metaFixed md idx
                     , token_count := some (estimateTokens (pyStrip (pySlice text start e))) } :
                       TextChunk) :: ([] : List TextChunk) = l := by
            simpa only [pure, Except.pure, Except.ok.injEq] using h
          rw [← hl] at hc
          rcases List.mem_cons.mp hc with hc2 | hc2
          · exact ⟨idx, by rw [hc2]⟩
          · simp at hc2

/-- Every chunk an ok run of the semantic loop produces has the semantic
metadata merge for some index. -/
theorem semLoop_meta (size : Nat) (md : Md) (noteId : Str) :
    ∀ ss cs cur idx l, semLoop size md noteId ss cs cur idx = .ok l →
      ∀ c ∈ l, ∃ j, c.metadata = metaSemantic md j := by
  intro ss
  induction ss with
  | nil =>
    intro cs cur idx l h c hc
    rw [semLoop] at h
    by_cases hcur : cur.isEmpty
    · simp only [hcur, if_true, Except.ok.injEq] at h
      subst h; simp at hc
    · simp only [hcur, Bool.false_eq_true, if_false, Except.ok.injEq] at h
      subst h
      rcases List.mem_singleton.mp hc with hc2
      rw [hc2]
      exact ⟨idx, rfl⟩
  | cons s rest ih =>
    intro cs cur idx l h c hc
    rw [semLoop] at h
    by_cases hfit : cur.length + s.length ≤ size
    · rw [if_pos hfit] at h
      exact ih _ _ _ _ h c hc
    · rw [if_neg hfit] at h
      by_cases hcur : cur.isEmpty
      · simp only [hcur, if_true] at h
        exact absurd h (by simp)
      · simp only [hcur, Bool.false_eq_true, if_false] at h
        cases hrec : semLoop size md noteId rest (cs + (pyStrip cur).length + 1)
            (s ++ [' ']) (idx + 1) with
        | error er => rw [hrec, bindError] at h; exact absurd h (by simp)
        | ok r2 =>
          rw [hrec, bindOk] at h
          have hl : ({ content := pyStrip cur
                     , chunk_id := chunkIdOf noteId idx
                     , start_char := (cs : Int)
                     , end_char := ((cs + (pyStrip cur).length : Nat) : Int)
                     , metadata := metaSemantic md idx
                     , token_count := some (estimateTokens (pyStrip cur)) } :
                       TextChunk) :: r2 = l := by
            simpa only [pure, Except.pure, Except.ok.injEq] using h
          rw [← hl] at hc
          rcases List.mem_cons.mp hc with hc2 | hc2
          · exact ⟨idx, by rw [hc2]⟩
          · exact ih _ _ _ _ hrec c hc2

/-- Chunks of an ok run of the recursive strategy carry the recursive
metadata merge. -/
theorem recursiveChunk_meta (size : Nat) (md : Md) (noteId text : Str) :
    ∀ l, recursiveChunk size md noteId text = .ok l →
      ∀ c ∈ l, ∃ j n, c.metadata = metaRecursive md j n := by
  intro l h c hc
  rw [recursiveChunk] at h
  cases hr : roundsGo size separators [text] with
  | error er => rw [hr, bindError] at h; exact absurd h (by simp)
  | ok frags =>
    rw [hr, bindOk] at h
    have hl : emitGo text md noteId frags.length frags 0 0 = l := by
      simpa only [pure, Except.pure, Except.ok.injEq] using h
    rw [← hl] at hc
    obtain ⟨j, hj⟩ := emitGo_meta text md noteId frags.length frags 0 0 c hc
    exact ⟨j, frags.length, hj⟩

/-- Chunks of an ok run of the fixed strategy carry the fixed metadata
merge. -/
theorem fixedChunk_meta (fuel size ov : Nat) (md : Md) (noteId text : Str) :
    ∀ l, fixedChunk fuel size ov md noteId text = .ok l →
      ∀ c ∈ l, ∃ j, c.metadata = metaFixed md j := by
  intro l h c hc
  rw [fixedChunk] at h
  by_cases hlen : (0 : Int) < (text.length : Int)
  · rw [if_pos hlen] at h
    exact fixedLoop_meta size ov md noteId text fuel 0 0 l h c hc
  · rw [if_neg hlen] at h
    have hl : l = [] := by
      simpa only [Except.ok.injEq] using h.symm
    subst hl; simp at hc

/-- Chunks of an ok run of the semantic strategy carry the semantic
metadata merge. -/
theorem semanticChunk_meta (size : Nat) (md : Md) (noteId text : Str) :
    ∀ l, semanticChunk size md noteId text = .ok l →
      ∀ c ∈ l, ∃ j, c.metadata = metaSemantic md j := by
  intro l h c hc
  rw [semanticChunk] at h
  exact semLoop_meta size md noteId (semSplit text) 0 [] 0 l h c hc

/-- C7 counterexample: the recursive strategy does add a total_chunks key
(here with value 1 on a one-fragment input), although the caller metadata
has no such key. -/
theorem c7_recursive_emits_total :
    Except.map (List.map (fun c => c.metadata kTotalChunks))
        (chunkText 0 ⟨10, 2, sRecursive⟩ mdNone [] (("ab").data)) =
        .ok [some (.pInt 1)] ∧
      mdNone kTotalChunks = none := by
  exact ⟨rfl, rfl⟩

/-- C7 amended: total_chunks is emitted by the page strategy (value 1)
and by the recursive strategy (value: count of final fragments); the
fixed and semantic strategies leave the caller's total_chunks entry
untouched. -/
theorem c7_amended_total_chunks (fuel size ov : Nat) (md : Md) (noteId text : Str) :
    (∀ c ∈ pageChunk md noteId text, c.metadata kTotalChunks = some (.pInt 1)) ∧
    (∀ l, recursiveChunk size md noteId text = .ok l →
      ∀ c ∈ l, ∃ n : Nat, c.metadata kTotalChunks = some (.pInt n)) ∧
    (∀ l, fixedChunk fuel size ov md noteId text = .ok l →
      ∀ c ∈ l, c.metadata kTotalChunks = md kTotalChunks) ∧
    (∀ l, semanticChunk size md noteId text = .ok l →
      ∀ c ∈ l, c.metadata kTotalChunks = md kTotalChunks) := by
  refine ⟨?_, ?_, ?_, ?_⟩
  · intro c hc
    rw [pageChunk_meta md noteId text c hc]
    rfl
  · intro l h c hc
    obtain ⟨j, n, hj⟩ := recursiveChunk_meta size md noteId text l h c hc
    exact ⟨n, by rw [hj]; rfl⟩
  · intro l h c hc
    obtain ⟨j, hj⟩ := fixedChunk_meta fuel size ov md noteId text l h c hc
    rw [hj]; rfl
  · intro l h c hc
    obtain ⟨j, hj⟩ := semanticChunk_meta size md noteId text l h c hc
    rw [hj]; rfl

/-- Witness for C7 amended: a concrete ok run of the fixed strategy whose
chunks all leave total_chunks absent. -/
theorem c7_amended_total_chunks_witness :
    List.all ((fixedChunk 10 5 2 mdNone [] (("abc").data)).toOption.getD [])
      (fun c => decide (c.metadata kTotalChunks = none)) = true := by
  rw [List.all_eq_true]
  intro c hc
  exact decide_eq_true
    ((c7_amended_total_chunks 10 5 2 mdNone [] (("abc").data)).2.2.1
      ((fixedChunk 10 5 2 mdNone [] (("abc").data)).toOption.getD []) rfl c hc)

/-- C10: chunker-added metadata keys always override caller-supplied
entries of the same name, and every other caller entry is preserved:
chunk_index and chunking_strategy for every strategy, total_chunks for the
page and recursive strategies (the fixed and semantic strategies leave a
caller total_chunks entry intact). -/
theorem c10_metadata_precedence (fuel size ov : Nat) (md : Md) (noteId text : Str) :
    (∀ c ∈ pageChunk md noteId text,
        c.metadata kChunkIndex = some (.pInt 0) ∧
        c.metadata kTotalChunks = some (.pInt 1) ∧
        c.metadata kChunkingStrategy = some (.pStr sPage.data) ∧
        ∀ k, k ≠ kChunkIndex → k ≠ kTotalChunks → k ≠ kChunkingStrategy →
          c.metadata k = md k) ∧
    (∀ l, recursiveChunk size md noteId text = .ok l → ∀ c ∈ l,
        (∃ i : Nat, c.metadata kChunkIndex = some (.pInt i)) ∧
        (∃ n : Nat, c.metadata kTotalChunks = some (.pInt n)) ∧
        c.metadata kChunkingStrategy = some (.pStr sRecursive.data) ∧
        ∀ k, k ≠ kChunkIndex → k ≠ kTotalChunks → k ≠ kChunkingStrategy →
          c.metadata k = md k) ∧
    (∀ l, fixedChunk fuel size ov md noteId text = .ok l → ∀ c ∈ l,
        (∃ i : Nat, c.metadata kChunkIndex = some (.pInt i)) ∧
        c.metadata kChunkingStrategy = some (.pStr sFixed.data) ∧
        ∀ k, k ≠ kChunkIndex → k ≠ kChunkingStrategy → c.metadata k = md k) ∧
    (∀ l, semanticChunk size md noteId text = .ok l → ∀ c ∈ l,
        (∃ i : Nat, c.metadata kChunkIndex = some (.pInt i)) ∧
        c.metadata kChunkingStrategy = some (.pStr sSemantic.data) ∧
        ∀ k, k ≠ kChunkIndex → k ≠ kChunkingStrategy → c.metadata k = md k) := by
  refine ⟨?_, ?_, ?_, ?_⟩
  · intro c hc
    rw [pageChunk_meta md noteId text c hc]
    refine ⟨rfl, rfl, rfl, ?_⟩
    intro k h1 h2 h3
    simp only [metaPage, if_neg h1, if_neg h2, if_neg h3]
  · intro l h c hc
    obtain ⟨j, n, hj⟩ := recursiveChunk_meta size md noteId text l h c hc
    rw [hj]
    refine ⟨⟨j, rfl⟩, ⟨n, rfl⟩, rfl, ?_⟩
    intro k h1 h2 h3
    simp only [metaRecursive, if_neg h1, if_neg h2, if_neg h3]
  · intro l h c hc
    obtain ⟨j, hj⟩ := fixedChunk_meta fuel size ov md noteId text l h c hc
    rw [hj]
    refine ⟨⟨j, rfl⟩, rfl, ?_⟩
    intro k h1 h3
    simp only [metaFixed, if_neg h1, if_neg h3]
  · intro l h c hc
    obtain ⟨j, hj⟩ := semanticChunk_meta size md noteId text l h c hc
    rw [hj]
    refine ⟨⟨j, rfl⟩, rfl, ?_⟩
    intro k h1 h3
    simp only [metaSemantic, if_neg h1, if_neg h3]

/-- A caller metadata mapping that collides with every chunker-added key
and carries one unrelated entry. -/
def mdClash : Md := fun k =>
  if k = kChunkIndex then some (.pOther 1)
  else if k = kTotalChunks then some (.pOther 2)
  else if k = kChunkingStrategy then some (.pOther 3)
  else if k = ("author") then some (.pOther 4)
  else none

/-- Witness for C10: on a concrete page run with clashing caller keys,
every chunker key is overridden and the unrelated key is preserved. -/
theorem c10_metadata_precedence_witness :
    List.all (pageChunk mdClash [] (("hi").data))
      (fun c => decide (c.metadata kChunkIndex = some (.pInt 0)) &&
        decide (c.metadata kTotalChunks = some (.pInt 1)) &&
        decide (c.metadata (("author")) = some (.pOther 4))) = true := by
  rw [List.all_eq_true]
  intro c hc
  obtain ⟨h1, h2, h3, h4⟩ :=
    (c10_metadata_precedence 0 5 1 mdClash [] (("hi").data)).1 c hc
  have ha := h4 (("author")) (by decide) (by decide) (by decide)
  rw [Bool.and_eq_true, Bool.and_eq_true]
  exact ⟨⟨decide_eq_true h1, decide_eq_true h2⟩,
    decide_eq_true (by rw [ha]; rfl)⟩

/-- The chunk_index metadata entry of a chunk, as an integer (-1 when
absent or not an int). -/
def chunkIdx (c : TextChunk) : Int :=
  match c.metadata kChunkIndex with
  | some (.pInt n) => n
  | _ => -1

/-- chunk_index values are k, k+1, k+2, ... in output order. -/
def idxConsecutive (k : Nat) (l : List TextChunk) : Prop :=
  ∀ j, (h : j < l.length) → chunkIdx (l.get ⟨j, h⟩) = ((k + j : Nat) : Int)

/-- chunk_index values are strictly increasing in output order. -/
def idxStrictMono (l : List TextChunk) : Prop :=
  List.Chain' (fun a b => chunkIdx a < chunkIdx b) l

/-- start_char is non-decreasing in output order. -/
def startsMono (l : List TextChunk) : Prop :=
  List.Chain' (fun a b => a.start_char ≤ b.start_char) l

/-- The find scanner only returns positions at or after the start
position. -/
theorem pyFindGo_ge (text sub : Str) :
    ∀ fuel pos r, pyFindGo text sub fuel pos = some r → pos ≤ r := by
  intro fuel
  induction fuel with
  | zero => intro pos r h; exact absurd h (by rw [pyFindGo]; simp)
  | succ m ih =>
    intro pos r h
    rw [pyFindGo] at h
    by_cases hp : sub.isPrefixOf (text.drop pos) = true
    · rw [if_pos hp] at h
      cases h
      exact Nat.le_refl pos
    · rw [if_neg hp] at h
      exact Nat.le_of_succ_le (ih (pos + 1) r h)

/-- Order facts for the recursive emission loop: all indices are at least
the enumeration counter, all offsets at least the cursor, indices are
strictly increasing and offsets non-decreasing. -/
theorem emitGo_order (text : Str) (md : Md) (noteId : Str) (total : Nat) :
    ∀ frags i pos,
      (∀ c ∈ emitGo text md noteId total frags i pos,
        (i : Int) ≤ chunkIdx c ∧ (pos : Int) ≤ c.start_char) ∧
      idxStrictMono (emitGo text md noteId total frags i pos) ∧
      startsMono (emitGo text md noteId total frags i pos) := by
  intro frags
  induction frags with
  | nil =>
    intro i pos
    refine ⟨fun c hc => absurd hc (by rw [emitGo]; simp), ?_, ?_⟩ <;>
      (rw [emitGo]; constructor)
  | cons f rest ih =>
    intro i pos
    rw [emitGo]
    by_cases he : (pyStrip f).isEmpty
    · simp only [he, if_true]
      obtain ⟨hmem, hidx, hst⟩ := ih (i + 1) pos
      refine ⟨fun c hc => ?_, hidx, hst⟩
      obtain ⟨h1, h2⟩ := hmem c hc
      constructor
      · exact le_trans (by exact_mod_cast Nat.le_succ i) h1
      · exact h2
    · simp only [he, Bool.false_eq_true, if_false]
      set s := resolvePos text (pyStrip f) pos with hs
      have hpos_s : pos ≤ s := by
        rw [hs, resolvePos]
        cases hf : pyFind text (pyStrip f) pos with
        | none => simp
        | some r =>
          simpa using pyFindGo_ge text (pyStrip f) _ pos r hf
      obtain ⟨hmem, hidx, hst⟩ := ih (i + 1) (s + (pyStrip f).length)
      have hCidx : chunkIdx
          { content := pyStrip f
          , chunk_id := chunkIdOf noteId i
          , start_char := (s : Int)
          , end_char := ((s + (pyStrip f).length : Nat) : Int)
          , metadata := metaRecursive md i total
          , token_count := some (estimateTokens (pyStrip f)) } = (i : Int) := by
        simp [chunkIdx, metaRecursive]
      refine ⟨fun c hc => ?_, ?_, ?_⟩
      · rcases List.mem_cons.mp hc with hc2 | hc2
        · rw [hc2]
          refine ⟨le_of_eq hCidx.symm, ?_⟩
          show (pos : Int) ≤ ((s : Nat) : Int)
          exact_mod_cast hpos_s
        · obtain ⟨h1, h2⟩ := hmem c hc2
          refine ⟨le_trans (by exact_mod_cast Nat.le_succ i) h1, ?_⟩
          refine le_trans ?_ h2
          exact_mod_cast Nat.le_add_right_of_le hpos_s
      · rw [idxStrictMono, List.chain'_cons']
        refine ⟨fun b hb => ?_, hidx⟩
        have hbmem : b ∈ emitGo text md noteId total rest (i + 1) (s + (pyStrip f).length) :=
          List.mem_of_mem_head? hb
        obtain ⟨h1, _⟩ := hmem b hbmem
        rw [hCidx]
        calc (i : Int) < ((i + 1 : Nat) : Int) := by exact_mod_cast Nat.lt_succ_self i
          _ ≤ chunkIdx b := h1
      · rw [startsMono, List.chain'_cons']
        refine ⟨fun b hb => ?_, hst⟩
        have hbmem : b ∈ emitGo text md noteId total rest (i + 1) (s + (pyStrip f).length) :=
          List.mem_of_mem_head? hb
        obtain ⟨_, h2⟩ := hmem b hbmem
        refine le_trans ?_ h2
        show ((s : Nat) : Int) ≤ ((s + (pyStrip f).length : Nat) : Int)
        exact_mod_cast Nat.le_add_right s (pyStrip f).length

/-- A successful boundary snap returns e - i + 1 for some probed i. -/
theorem snapGo_some (text : Str) (e : Int) :
    ∀ rem i0 e2, snapGo text e rem i0 = .ok (some e2) →
      ∃ i : Nat, i0 ≤ i ∧ i < i0 + rem ∧ e2 = e - (i : Int) + 1 := by
  intro rem
  induction rem with
  | zero =>
    intro i0 e2 h
    rw [snapGo] at h
    exact absurd h (by simp)
  | succ m ih =>
    intro i0 e2 h
    rw [snapGo] at h
    cases hpi : pyIndex text (e - (i0 : Int)) with
    | error er => rw [hpi, bindError] at h; exact absurd h (by simp)
    | ok c =>
      rw [hpi, bindOk] at h
      by_cases hb : isBoundaryChar c = true
      · rw [if_pos hb] at h
        have he2 : e - (i0 : Int) + 1 = e2 := by
          simpa only [pure, Except.pure, Except.ok.injEq, Option.some.injEq] using h
        exact ⟨i0, Nat.le_refl i0, by omega, he2.symm⟩
      · rw [if_neg hb] at h
        obtain ⟨i, h1, h2, h3⟩ := ih (i0 + 1) e2 h
        exact ⟨i, by omega, by omega, h3⟩

/-- Bounds on the window end of one fixed-strategy iteration. -/
theorem computeEnd_bounds (text : Str) (size : Nat) (start e : Int) (hsize : 1 ≤ size)
    (h : computeEnd text size start = .ok e) :
    start < e ∧ e ≤ start + size + 1 ∧
      (start + (size : Int) < (text.length : Int) → e ≤ (text.length : Int)) ∧
      ((text.length : Int) ≤ start + (size : Int) → e = start + size) := by
  rw [computeEnd] at h
  by_cases hlt : start + (size : Int) < (text.length : Int)
  · rw [if_pos hlt] at h
    cases hs : snapGo text (start + (size : Int))
        (min 50 (start + (size : Int) - start).toNat) 0 with
    | error er => rw [hs, bindError] at h; exact absurd h (by simp)
    | ok o =>
      rw [hs, bindOk] at h
      cases o with
      | none =>
        have he : start + (size : Int) = e := by
          simpa only [pure, Except.pure, Except.ok.injEq] using h
        refine ⟨by omega, by omega, fun _ => by omega, fun h4 => by omega⟩
      | some e2 =>
        have he : e2 = e := by
          simpa only [pure, Except.pure, Except.ok.injEq] using h
        obtain ⟨i, h1, h2, h3⟩ := snapGo_some text (start + (size : Int)) _ 0 e2 hs
        have hrem : (start + (size : Int) - start).toNat = size := by
          have : start + (size : Int) - start = (size : Int) := by ring
          rw [this, Int.toNat_natCast]
        rw [hrem] at h2
        have hi : i < size := lt_of_lt_of_le (by omega) (min_le_right 50 size)
        have hi2 : (i : Int) < (size : Int) := by exact_mod_cast hi
        refine ⟨by omega, by omega, fun _ => by omega, fun h4 => by omega⟩
  · rw [if_neg hlt] at h
    have he : start + (size : Int) = e := by
      simpa only [pure, Except.pure, Except.ok.injEq] using h
    refine ⟨by omega, by omega, fun h3 => by omega, fun _ => by omega⟩

/-- A Python slice is no longer than the distance of its bounds. -/
theorem pySlice_len_le (t : Str) (a b : Int) (hab : a < b) :
    (pySlice t a b).length ≤ (b - a).toNat := by
  rw [pySlice, sliceIdx, sliceIdx, List.length_drop, List.length_take]
  split_ifs <;> omega

/-- Dropping a prefix by a predicate does not lengthen a list. -/
theorem dropWhile_length_le (p : Char → Bool) (l : Str) :
    (l.dropWhile p).length ≤ l.length :=
  (List.dropWhile_sublist (l := l) (p := p)).length_le

/-- rstrip does not lengthen a string. -/
theorem pyRStrip_length_le (s : Str) : (pyRStrip s).length ≤ s.length := by
  rw [pyRStrip, List.length_reverse]
  calc (s.reverse.dropWhile isPySpace).length ≤ s.reverse.length :=
        dropWhile_length_le isPySpace s.reverse
    _ = s.length := by rw [List.length_reverse]

/-- lstrip does not lengthen a string. -/
theorem pyLStrip_length_le (s : Str) : (pyLStrip s).length ≤ s.length :=
  dropWhile_length_le isPySpace s

/-- strip does not lengthen a string. -/
theorem pyStrip_length_le (s : Str) : (pyStrip s).length ≤ s.length :=
  le_trans (pyLStrip_length_le (pyRStrip s)) (pyRStrip_length_le s)

/-- rstrip absorbs a trailing whitespace character. -/
theorem pyRStrip_append_space (s : Str) (c : Char) (hc : isPySpace c = true) :
    pyRStrip (s ++ [c]) = pyRStrip s := by
  rw [pyRStrip, pyRStrip, List.reverse_append, List.reverse_singleton,
    List.singleton_append, List.dropWhile_cons_of_pos hc]

/-- strip absorbs a trailing whitespace character. -/
theorem pyStrip_append_space (s : Str) (c : Char) (hc : isPySpace c = true) :
    pyStrip (s ++ [c]) = pyStrip s := by
  rw [pyStrip, pyStrip, pyRStrip_append_space s c hc]

/-- lstrip returns a suffix: the input is some prefix plus the result. -/
theorem pyLStrip_decomp (s : Str) : ∃ a, s = a ++ pyLStrip s :=
  ⟨s.takeWhile isPySpace, (List.takeWhile_append_dropWhile isPySpace s).symm⟩

/-- rstrip returns a prefix: the input is the result plus some suffix. -/
theorem pyRStrip_decomp (s : Str) : ∃ b, s = pyRStrip s ++ b := by
  refine ⟨(s.reverse.takeWhile isPySpace).reverse, ?_⟩
  rw [pyRStrip, ← List.reverse_append]
  rw [List.takeWhile_append_dropWhile isPySpace s.reverse, List.reverse_reverse]

/-- strip returns an infix: the input is a prefix, the result, and a
suffix. -/
theorem pyStrip_decomp (s : Str) : ∃ a b, s = a ++ pyStrip s ++ b := by
  obtain ⟨b, hb⟩ := pyRStrip_decomp s
  obtain ⟨a, ha⟩ := pyLStrip_decomp (pyRStrip s)
  refine ⟨a, b, ?_⟩
  conv_lhs => rw [hb, ha]
  rw [pyStrip, List.append_assoc]

/-- Index-consecutiveness extends through a cons. -/
theorem idxConsecutive_cons (k : Nat) (c : TextChunk) (l : List TextChunk)
    (hc : chunkIdx c = (k : Int)) (hl : idxConsecutive (k + 1) l) :
    idxConsecutive k (c :: l) := by
  intro j h
  cases j with
  | zero => simpa using hc
  | succ m =>
    have hm : m < l.length := by simpa using h
    have := hl m hm
    have hget : (c :: l).get ⟨m + 1, h⟩ = l.get ⟨m, hm⟩ := rfl
    rw [hget, this]
    push_cast
    ring

/-- Combined invariants of an ok run of the fixed-strategy loop: every
content has at most size + 1 characters; chunk indices are consecutive
from the entry index; and when overlap is at most 1 and the entry cursor
is inside the text, all offsets are in bounds (end_char can reach
len(text) + size - 1) and start_char is non-decreasing. -/
theorem fixedLoop_inv (size ov : Nat) (md : Md) (noteId text : Str) (hsize : 1 ≤ size) :
    ∀ fuel start idx l,
      fixedLoop size ov md noteId text fuel start idx = .ok l →
      (∀ c ∈ l, c.content.length ≤ size + 1) ∧
      idxConsecutive idx l ∧
      (ov ≤ 1 → 0 ≤ start → start < (text.length : Int) →
        (∀ c ∈ l, start ≤ c.start_char ∧ 0 ≤ c.start_char ∧
          c.start_char < c.end_char ∧
          c.end_char ≤ (text.length : Int) + size - 1) ∧
        startsMono l) := by
  intro fuel
  induction fuel with
  | zero =>
    intro start idx l h
    exact absurd h (by rw [fixedLoop]; simp)
  | succ n ih =>
    intro start idx l h
    rw [fixedLoop] at h
    cases hce : computeEnd text size start with
    | error er => rw [hce, bindError] at h; exact absurd h (by simp)
    | ok e =>
      rw [hce, bindOk] at h
      obtain ⟨hse, hesz, hlen1, hlen2⟩ := computeEnd_bounds text size start e hsize hce
      have hclen : (pyStrip (pySlice text start e)).length ≤ size + 1 := by
        refine le_trans (pyStrip_length_le (pySlice text start e)) ?_
        refine le_trans (pySlice_len_le text start e hse) ?_
        omega
      have hend : start < (text.length : Int) → e ≤ (text.length : Int) + size - 1 := by
        intro hsl
        by_cases hc2 : start + (size : Int) < (text.length : Int)
        · have := hlen1 hc2
          omega
        · have := hlen2 (by omega)
          omega
      cases hct : (pyStrip (pySlice text start e)).isEmpty with
      | true =>
        simp only [hct, if_true] at h
        by_cases hlt : e - (ov : Int) < (text.length : Int)
        · rw [if_pos hlt] at h
          cases hrec : fixedLoop size ov md noteId text n (e - (ov : Int)) idx with
          | error er => rw [hrec, bindError] at h; exact absurd h (by simp)
          | ok rest =>
            rw [hrec, bindOk] at h
            have hl : rest = l := by
              simpa only [pure, Except.pure, List.nil_append, Except.ok.injEq] using h
            subst hl
            obtain ⟨hsz, hidx, hoff⟩ := ih (e - (ov : Int)) idx rest hrec
            refine ⟨hsz, hidx, fun hov h0 hsl => ?_⟩
            have hge : start ≤ e - (ov : Int) := by omega
            obtain ⟨hmem, hchain⟩ := hoff hov (by omega) hlt
            exact ⟨fun c hc => by
              obtain ⟨m1, m2, m3, m4⟩ := hmem c hc
              exact ⟨le_trans hge m1, m2, m3, m4⟩, hchain⟩
        · rw [if_neg hlt] at h
          have hl : ([] : List TextChunk) = l := by
            simpa only [pure, Except.pure, Except.ok.injEq] using h
          subst hl
          refine ⟨by simp, fun j hj => by simp at hj, fun _ _ _ => ⟨by simp, ?_⟩⟩
          constructor
      | false =>
        simp only [hct, Bool.false_eq_true, if_false] at h
        set C : TextChunk :=
          { content := pyStrip (pySlice text start e)
          , chunk_id := chunkIdOf noteId idx
          , start_char := start
          , end_char := e
          , metadata := metaFixed md idx
          , token_count := some (estimateTokens (pyStrip (pySlice text start e))) } with hC
        have hCidx : chunkIdx C = (idx : Int) := by
          simp [hC, chunkIdx, metaFixed]
        by_cases hlt : e - (ov : Int) < (text.length : Int)
        · rw [if_pos hlt] at h
          cases hrec : fixedLoop size ov md noteId text n (e - (ov : Int)) (idx + 1) with
          | error er => rw [hrec, bindError] at h; exact absurd h (by simp)
          | ok rest =>
            rw [hrec, bindOk] at h
            have hl : C :: rest = l := by
              simpa only [pure, Except.pure, List.singleton_append, Except.ok.injEq] using h
            rw [← hl]
            obtain ⟨hsz, hidx, hoff⟩ := ih (e - (ov : Int)) (idx + 1) rest hrec
            refine ⟨?_, idxConsecutive_cons idx C rest hCidx hidx, fun hov h0 hsl => ?_⟩
            · intro c hc
              rcases List.mem_cons.mp hc with hc2 | hc2
              · rw [hc2]; exact hclen
              · exact hsz c hc2
            · have hge : start ≤ e - (ov : Int) := by omega
              obtain ⟨hmem, hchain⟩ := hoff hov (by omega) hlt
              constructor
              · intro c hc
                rcases List.mem_cons.mp hc with hc2 | hc2
                · rw [hc2]
                  exact ⟨le_refl start, h0, hse, hend hsl⟩
                · obtain ⟨m1, m2, m3, m4⟩ := hmem c hc2
                  exact ⟨le_trans hge m1, m2, m3, m4⟩
              · rw [startsMono, List.chain'_cons']
                refine ⟨fun b hb => ?_, hchain⟩
                have hbmem : b ∈ rest := List.mem_of_mem_head? hb
                obtain ⟨m1, _, _, _⟩ := hmem b hbmem
                show start ≤ b.start_char
                omega
        · rw [if_neg hlt] at h
          have hl : C :: ([] : List TextChunk) = l := by
            simpa only [pure, Except.pure, Except.ok.injEq] using h
          rw [← hl]
          refine ⟨?_, ?_, fun hov h0 hsl => ⟨?_, ?_⟩⟩
          · intro c hc
            rcases List.mem_cons.mp hc with hc2 | hc2
            · rw [hc2]; exact hclen
            · simp at hc2
          · exact idxConsecutive_cons idx C [] hCidx (fun j hj => by simp at hj)
          · intro c hc
            rcases List.mem_cons.mp hc with hc2 | hc2
            · rw [hc2]
              exact ⟨le_refl start, h0, hse, hend hsl⟩
            · simp at hc2
          · exact List.chain'_singleton C

/-- Order facts for an ok run of the semantic loop: indices consecutive
from the entry index, offsets at least the cursor and non-decreasing. -/
theorem semLoop_order (size : Nat) (md : Md) (noteId : Str) :
    ∀ ss cs cur idx l, semLoop size md noteId ss cs cur idx = .ok l →
      idxConsecutive idx l ∧ (∀ c ∈ l, (cs : Int) ≤ c.start_char) ∧ startsMono l := by
  intro ss
  induction ss with
  | nil =>
    intro cs cur idx l h
    rw [semLoop] at h
    by_cases hcur : cur.isEmpty
    · simp only [hcur, if_true, Except.ok.injEq] at h
      subst h
      exact ⟨fun j hj => by simp at hj, fun c hc => by simp at hc, by constructor⟩
    · simp only [hcur, Bool.false_eq_true, if_false, Except.ok.injEq] at h
      subst h
      refine ⟨?_, ?_, List.chain'_singleton _⟩
      · refine idxConsecutive_cons idx _ [] ?_ (fun j hj => by simp at hj)
        simp [chunkIdx, metaSemantic]
      · intro c hc
        rw [List.mem_singleton.mp hc]
  | cons s rest ih =>
    intro cs cur idx l h
    rw [semLoop] at h
    by_cases hfit : cur.length + s.length ≤ size
    · rw [if_pos hfit] at h
      exact ih _ _ _ _ h
    · rw [if_neg hfit] at h
      by_cases hcur : cur.isEmpty
      · simp only [hcur, if_true] at h
        exact absurd h (by simp)
      · simp only [hcur, Bool.false_eq_true, if_false] at h
        cases hrec : semLoop size md noteId rest (cs + (pyStrip cur).length + 1)
            (s ++ [' ']) (idx + 1) with
        | error er => rw [hrec, bindError] at h; exact absurd h (by simp)
        | ok r2 =>
          rw [hrec, bindOk] at h
          set C : TextChunk :=
            { content := pyStrip cur
            , chunk_id := chunkIdOf noteId idx
            , start_char := (cs : Int)
            , end_char := ((cs + (pyStrip cur).length : Nat) : Int)
            , metadata := metaSemantic md idx
            , token_count := some (estimateTokens (pyStrip cur)) } with hC
          have hl : C :: r2 = l := by
            simpa only [pure, Except.pure, Except.ok.injEq] using h
          rw [← hl]
          obtain ⟨hidx, hmem, hchain⟩ := ih _ _ _ _ hrec
          have hC0 : C.start_char = (cs : Int) := rfl
          have hcs : (cs : Int) ≤ ((cs + (pyStrip cur).length + 1 : Nat) : Int) := by
            push_cast; omega
          refine ⟨?_, ?_, ?_⟩
          · refine idxConsecutive_cons idx C r2 ?_ hidx
            simp [hC, chunkIdx, metaSemantic]
          · intro c hc
            rcases List.mem_cons.mp hc with hc2 | hc2
            · rw [hc2, hC0]
            · exact le_trans hcs (hmem c hc2)
          · rw [startsMono, List.chain'_cons']
            refine ⟨fun b hb => ?_, hchain⟩
            have hbmem : b ∈ r2 := List.mem_of_mem_head? hb
            rw [hC0] at *
            exact le_trans hcs (hmem b hbmem)

/-- C6 counterexample: the recursive strategy skips the indices of
whitespace-only fragments, so chunk_index values are 0 then 4 on this
input, not consecutive 0, 1. -/
theorem c6_recursive_index_gap :
    Except.map (List.map (fun c => c.metadata kChunkIndex))
        (chunkText 0 ⟨5, 2, sRecursive⟩ mdNone [] (("aaaa\n\n\n\n\n\nbbbb").data)) =
        .ok [some (.pInt 0), some (.pInt 4)] ∧
      (4 : Int) ≠ 1 := by
  exact ⟨rfl, by decide⟩

/-- C6 amended: chunk_index values are consecutive from 0 for the page,
fixed and semantic strategies, but only strictly increasing (with gaps at
skipped whitespace-only fragments) for the recursive strategy; start_char
is non-decreasing for page, recursive and semantic, and for fixed when
overlap is at most 1 (a larger overlap can move the cursor backward). -/
theorem c6_amended_order (fuel size ov : Nat) (md : Md) (noteId text : Str)
    (hsize : 1 ≤ size) :
    (idxConsecutive 0 (pageChunk md noteId text) ∧
      startsMono (pageChunk md noteId text)) ∧
    (∀ l, recursiveChunk size md noteId text = .ok l →
      idxStrictMono l ∧ startsMono l) ∧
    (∀ l, fixedChunk fuel size ov md noteId text = .ok l →
      idxConsecutive 0 l ∧ (ov ≤ 1 → startsMono l)) ∧
    (∀ l, semanticChunk size md noteId text = .ok l →
      idxConsecutive 0 l ∧ startsMono l) := by
  refine ⟨?_, ?_, ?_, ?_⟩
  · rw [pageChunk]
    by_cases he : (pyStrip text).isEmpty
    · simp only [he, if_true]
      exact ⟨fun j hj => by simp at hj, by constructor⟩
    · simp only [he, Bool.false_eq_true, if_false]
      refine ⟨?_, List.chain'_singleton _⟩
      refine idxConsecutive_cons 0 _ [] ?_ (fun j hj => by simp at hj)
      simp [chunkIdx, metaPage]
  · intro l h
    rw [recursiveChunk] at h
    cases hr : roundsGo size separators [text] with
    | error er => rw [hr, bindError] at h; exact absurd h (by simp)
    | ok frags =>
      rw [hr, bindOk] at h
      have hl : emitGo text md noteId frags.length frags 0 0 = l := by
        simpa only [pure, Except.pure, Except.ok.injEq] using h
      rw [← hl]
      obtain ⟨_, hidx, hst⟩ := emitGo_order text md noteId frags.length frags 0 0
      exact ⟨hidx, hst⟩
  · intro l h
    rw [fixedChunk] at h
    by_cases hlen : (0 : Int) < (text.length : Int)
    · rw [if_pos hlen] at h
      obtain ⟨_, hidx, hoff⟩ := fixedLoop_inv size ov md noteId text hsize fuel 0 0 l h
      exact ⟨hidx, fun hov => (hoff hov (le_refl 0) hlen).2⟩
    · rw [if_neg hlen] at h
      have hl : ([] : List TextChunk) = l := by
        simpa only [Except.ok.injEq] using h
      subst hl
      exact ⟨fun j hj => by simp at hj, fun _ => by constructor⟩
  · intro l h
    rw [semanticChunk] at h
    obtain ⟨hidx, _, hst⟩ := semLoop_order size md noteId (semSplit text) 0 [] 0 l h
    exact ⟨hidx, hst⟩

/-- Witness for C6 amended: a concrete ok run of the recursive strategy
with strictly increasing indices and non-decreasing offsets. -/
theorem c6_amended_order_witness :
    idxStrictMono ((recursiveChunk 5 mdNone [] (("ab cd").data)).toOption.getD []) ∧
      startsMono ((recursiveChunk 5 mdNone [] (("ab cd").data)).toOption.getD []) := by
  exact (c6_amended_order 0 5 2 mdNone [] (("ab cd").data) (by decide)).2.1 _ rfl

/-- The whitespace-delimited tokens of a text: this formalizes the
claim's notion of a separator-free token. -/
def wsTokens (s : Str) : List Str :=
  (s.splitOnP (fun c => isPySpace c)).filter (fun t => !t.isEmpty)

/-- The length of the longest string in a list. -/
def maxLen (l : List Str) : Nat := l.foldr (fun s m => max s.length m) 0

/-- Every member is bounded by the maximum length. -/
theorem le_maxLen (l : List Str) (s : Str) (h : s ∈ l) : s.length ≤ maxLen l := by
  induction l with
  | nil => simp at h
  | cons x rest ih =>
    rcases List.mem_cons.mp h with h0 | h0
    · rw [h0, maxLen, List.foldr_cons]
      exact le_max_left _ _
    · rw [maxLen, List.foldr_cons]
      exact le_trans (ih h0) (le_max_right _ _)

/-- A round with the empty separator only succeeds when every fragment is
already within the limit. -/
theorem roundGo_empty_ok (size : Nat) :
    ∀ frags nxt, roundGo size ([] : Str) frags = .ok nxt →
      allSmall size nxt = true := by
  intro frags
  induction frags with
  | nil =>
    intro nxt h
    have : ([] : List Str) = nxt := by
      simpa only [roundGo, Except.ok.injEq] using h
    subst this
    rfl
  | cons f rest ih =>
    intro nxt h
    rw [roundGo] at h
    by_cases hf : f.length ≤ size
    · have hsm : splitMerge size ([] : Str) f = .ok [f] := by
        rw [splitMerge, if_pos hf]
      rw [hsm, bindOk] at h
      cases hr : roundGo size ([] : Str) rest with
      | error er => rw [hr, bindError] at h; exact absurd h (by simp)
      | ok r =>
        rw [hr, bindOk] at h
        have : [f] ++ r = nxt := by
          simpa only [pure, Except.pure, Except.ok.injEq] using h
        subst this
        have := ih r hr
        simp only [allSmall, List.all_append, List.all_cons, List.all_nil,
          Bool.and_true, Bool.and_eq_true] at *
        exact ⟨by simpa using hf, this⟩
    · have hsm : splitMerge size ([] : Str) f = .error .valueError := by
        rw [splitMerge, if_neg hf]
        rfl
      rw [hsm, bindError] at h
      exact absurd h (by simp)

/-- When the separator list contains the empty separator, an ok run of
the separator loop ends with every fragment within the limit. -/
theorem roundsGo_ok_small (size : Nat) :
    ∀ seps frags out, ([] : Str) ∈ seps →
      roundsGo size seps frags = .ok out → allSmall size out = true := by
  intro seps
  induction seps with
  | nil => intro frags out hmem; simp at hmem
  | cons sep rest ih =>
    intro frags out hmem h
    rw [roundsGo] at h
    cases hr : roundGo size sep frags with
    | error er => rw [hr, bindError] at h; exact absurd h (by simp)
    | ok nxt =>
      rw [hr, bindOk] at h
      by_cases hall : allSmall size nxt = true
      · rw [hall] at h
        simp only [if_true] at h
        have : nxt = out := by
          simpa only [pure, Except.pure, Except.ok.injEq] using h
        subst this
        exact hall
      · rw [if_neg (by simpa using hall)] at h
        by_cases hemp : sep = ([] : Str)
        · subst hemp
          exact absurd (roundGo_empty_ok size frags nxt hr) hall
        · have hmem2 : ([] : Str) ∈ rest := by
            rcases List.mem_cons.mp hmem with h0 | h0
            · exact absurd h0.symm hemp
            · exact h0
          exact ih nxt out hmem2 h

/-- Every content the recursive emission loop produces is the strip of
one of the fragments. -/
theorem emitGo_content (text : Str) (md : Md) (noteId : Str) (total : Nat) :
    ∀ frags i pos, ∀ c ∈ emitGo text md noteId total frags i pos,
      ∃ f ∈ frags, c.content = pyStrip f := by
  intro frags
  induction frags with
  | nil => intro i pos c hc; rw [emitGo] at hc; simp at hc
  | cons f rest ih =>
    intro i pos c hc
    rw [emitGo] at hc
    by_cases he : (pyStrip f).isEmpty
    · simp only [he, if_true] at hc
      obtain ⟨g, hg1, hg2⟩ := ih (i + 1) pos c hc
      exact ⟨g, by simp [hg1], hg2⟩
    · simp only [he, Bool.false_eq_true, if_false, List.mem_cons] at hc
      rcases hc with hc | hc
      · exact ⟨f, by simp, by rw [hc]⟩
      · obtain ⟨g, hg1, hg2⟩ := ih (i + 1) _ c hc
        exact ⟨g, by simp [hg1], hg2⟩

/-- Content-size bound for an ok run of the semantic loop, given bounds
on the buffer and the pending sentences. -/
theorem semLoop_content_le (size : Nat) (md : Md) (noteId : Str) (B : Nat)
    (hB : size ≤ B) :
    ∀ ss cs cur idx l, (pyStrip cur).length ≤ B → (∀ s ∈ ss, s.length ≤ B) →
      semLoop size md noteId ss cs cur idx = .ok l →
      ∀ c ∈ l, c.content.length ≤ B := by
  intro ss
  induction ss with
  | nil =>
    intro cs cur idx l hcur hss h c hc
    rw [semLoop] at h
    by_cases hce : cur.isEmpty
    · simp only [hce, if_true, Except.ok.injEq] at h
      subst h; simp at hc
    · simp only [hce, Bool.false_eq_true, if_false, Except.ok.injEq] at h
      subst h
      rw [List.mem_singleton.mp hc]
      exact hcur
  | cons s rest ih =>
    intro cs cur idx l hcur hss h c hc
    rw [semLoop] at h
    by_cases hfit : cur.length + s.length ≤ size
    · rw [if_pos hfit] at h
      refine ih _ _ _ _ ?_ (fun t ht => hss t (by simp [ht])) h c hc
      have hps : pyStrip (cur ++ s ++ [' ']) = pyStrip (cur ++ s) :=
        pyStrip_append_space (cur ++ s) ' ' (by rfl)
      rw [hps]
      refine le_trans (pyStrip_length_le (cur ++ s)) ?_
      rw [List.length_append]
      omega
    · rw [if_neg hfit] at h
      by_cases hce : cur.isEmpty
      · simp only [hce, if_true] at h
        exact absurd h (by simp)
      · simp only [hce, Bool.false_eq_true, if_false] at h
        cases hrec : semLoop size md noteId rest (cs + (pyStrip cur).length + 1)
            (s ++ [' ']) (idx + 1) with
        | error er => rw [hrec, bindError] at h; exact absurd h (by simp)
        | ok r2 =>
          rw [hrec, bindOk] at h
          have hl : ({ content := pyStrip cur
                     , chunk_id := chunkIdOf noteId idx
                     , start_char := (cs : Int)
                     , end_char := ((cs + (pyStrip cur).length : Nat) : Int)
                     , metadata := metaSemantic md idx
                     , token_count := some (estimateTokens (pyStrip cur)) } :
                       TextChunk) :: r2 = l := by
            simpa only [pure, Except.pure, Except.ok.injEq] using h
          rw [← hl] at hc
          rcases List.mem_cons.mp hc with hc2 | hc2
          · rw [hc2]
            exact hcur
          · refine ih _ _ _ _ ?_ (fun t ht => hss t (by simp [ht])) hrec c hc2
            have hps : pyStrip (s ++ [' ']) = pyStrip s :=
              pyStrip_append_space s ' ' (by rfl)
            rw [hps]
            exact le_trans (pyStrip_length_le s) (hss s (by simp))

/-- C4 counterexample: with max_chunk_size=6 and no whitespace-delimited
token longer than 6, the fixed strategy still emits a chunk of length 7:
the boundary snap at i=0 includes the character at the window end. -/
theorem c4_fixed_oversized :
    (wsTokens (("abcd x. gh").data)).all (fun t => t.length ≤ 6) = true ∧
      Except.map (List.map (fun c => c.content.length))
        (chunkText 9 ⟨6, 0, sFixed⟩ mdNone [] (("abcd x. gh").data)) =
        .ok [7, 2] ∧
      6 < 7 := by
  exact ⟨by decide, rfl, by decide⟩

/-- C4 amended: on a normal return the recursive strategy respects the
size bound (no token hypothesis needed), the fixed strategy can exceed it
by exactly one character (boundary snap), and the semantic strategy is
bounded by the longer of the limit and the longest sentence. -/
theorem c4_amended_size (fuel size ov : Nat) (md : Md) (noteId text : Str)
    (hsize : 1 ≤ size) :
    (∀ l, recursiveChunk size md noteId text = .ok l →
      ∀ c ∈ l, c.content.length ≤ size) ∧
    (∀ l, fixedChunk fuel size ov md noteId text = .ok l →
      ∀ c ∈ l, c.content.length ≤ size + 1) ∧
    (∀ l, semanticChunk size md noteId text = .ok l →
      ∀ c ∈ l, c.content.length ≤ max size (maxLen (semSplit text))) := by
  refine ⟨?_, ?_, ?_⟩
  · intro l h c hc
    rw [recursiveChunk] at h
    cases hr : roundsGo size separators [text] with
    | error er => rw [hr, bindError] at h; exact absurd h (by simp)
    | ok frags =>
      rw [hr, bindOk] at h
      have hl : emitGo text md noteId frags.length frags 0 0 = l := by
        simpa only [pure, Except.pure, Except.ok.injEq] using h
      rw [← hl] at hc
      obtain ⟨f, hf, hcf⟩ := emitGo_content text md noteId frags.length frags 0 0 c hc
      have hsmall := roundsGo_ok_small size separators [text] frags (by decide) hr
      rw [allSmall, List.all_eq_true] at hsmall
      have hflen : f.length ≤ size := by simpa using hsmall f hf
      rw [hcf]
      exact le_trans (pyStrip_length_le f) hflen
  · intro l h c hc
    rw [fixedChunk] at h
    by_cases hlen : (0 : Int) < (text.length : Int)
    · rw [if_pos hlen] at h
      exact (fixedLoop_inv size ov md noteId text hsize fuel 0 0 l h).1 c hc
    · rw [if_neg hlen] at h
      have hl : ([] : List TextChunk) = l := by
        simpa only [Except.ok.injEq] using h
      subst hl; simp at hc
  · intro l h c hc
    rw [semanticChunk] at h
    refine semLoop_content_le size md noteId (max size (maxLen (semSplit text)))
      (le_max_left _ _) (semSplit text) 0 [] 0 l ?_ ?_ h c hc
    · simp [pyStrip, pyRStrip, pyLStrip]
    · exact fun s hs => le_trans (le_maxLen (semSplit text) s hs) (le_max_right _ _)

/-- Witness for C4 amended: a concrete ok run of the recursive strategy
whose chunk contents are within the size bound. -/
theorem c4_amended_size_witness :
    List.all ((recursiveChunk 5 mdNone [] (("ab cd").data)).toOption.getD [])
      (fun c => decide (c.content.length ≤ 5)) = true := by
  rw [List.all_eq_true]
  intro c hc
  exact decide_eq_true
    ((c4_amended_size 0 5 2 mdNone [] (("ab cd").data) (by decide)).1
      ((recursiveChunk 5 mdNone [] (("ab cd").data)).toOption.getD []) rfl c hc)

/-- The split scanner never returns an empty list. -/
theorem pySplitGo_ne_nil (sep : Str) :
    ∀ fuel s acc, pySplitGo sep fuel s acc ≠ [] := by
  intro fuel
  induction fuel with
  | zero =>
    intro s acc
    show [acc.reverse ++ s] ≠ []
    simp
  | succ m ih =>
    intro s acc h
    simp only [pySplitGo] at h
    by_cases hp : sep.isPrefixOf s = true
    · rw [if_pos hp] at h; simp at h
    · rw [if_neg hp] at h
      cases s with
      | nil => simp at h
      | cons c rest => exact ih rest (c :: acc) h

/-- Re-appending separators to the split parts and concatenating restores
the input. -/
theorem withSep_pySplitGo_join (sep : Str) :
    ∀ fuel s acc, (withSep sep (pySplitGo sep fuel s acc)).flatten = acc.reverse ++ s := by
  intro fuel
  induction fuel with
  | zero =>
    intro s acc
    show (withSep sep [acc.reverse ++ s]).flatten = acc.reverse ++ s
    simp [withSep]
  | succ m ih =>
    intro s acc
    by_cases hp : sep.isPrefixOf s = true
    · have hstep : pySplitGo sep (m + 1) s acc =
          acc.reverse :: pySplitGo sep m (s.drop sep.length) [] := by
        simp only [pySplitGo, if_pos hp]
      rw [hstep]
      cases hR : pySplitGo sep m (s.drop sep.length) [] with
      | nil => exact absurd hR (pySplitGo_ne_nil sep m _ [])
      | cons r rs =>
        rw [withSep, List.flatten_cons]
        have hii := ih (s.drop sep.length) []
        rw [hR] at hii
        rw [hii]
        simp only [List.reverse_nil, List.nil_append]
        obtain ⟨t, ht⟩ := List.isPrefixOf_iff_prefix.mp hp
        rw [← ht, List.drop_left, List.append_assoc]
    · cases s with
      | nil =>
        have hstep : pySplitGo sep (m + 1) ([] : Str) acc = [acc.reverse] := by
          simp only [pySplitGo, if_neg hp]
        rw [hstep]
        simp [withSep]
      | cons c rest =>
        have hstep : pySplitGo sep (m + 1) (c :: rest) acc =
            pySplitGo sep m rest (c :: acc) := by
          simp only [pySplitGo, if_neg hp]
        rw [hstep, ih rest (c :: acc)]
        simp

/-- The greedy merge concatenates to the buffer plus the pieces. -/
theorem mergeGo_join (size : Nat) :
    ∀ ps cur, (mergeGo size ps cur).flatten = cur ++ ps.flatten := by
  intro ps
  induction ps with
  | nil =>
    intro cur
    rw [mergeGo]
    by_cases hce : cur.isEmpty
    · rw [if_pos hce]
      rw [List.isEmpty_iff.mp hce]
      rfl
    · rw [if_neg hce]
      simp
  | cons p rest ih =>
    intro cur
    rw [mergeGo]
    by_cases hfit : cur.length + p.length ≤ size
    · rw [if_pos hfit, ih (cur ++ p)]
      simp
    · rw [if_neg hfit]
      by_cases hce : cur.isEmpty
      · rw [if_pos hce, ih p, List.isEmpty_iff.mp hce]
        simp
      · rw [if_neg hce, List.flatten_cons, ih p]
        simp

/-- A successful splitMerge concatenates back to the fragment. -/
theorem splitMerge_join (size : Nat) (sep frag : Str) :
    ∀ out, splitMerge size sep frag = .ok out → out.flatten = frag := by
  intro out h
  rw [splitMerge] at h
  by_cases hsm : frag.length ≤ size
  · rw [if_pos hsm] at h
    have : [frag] = out := by simpa only [Except.ok.injEq] using h
    subst this
    simp
  · rw [if_neg hsm] at h
    by_cases hep : sep.isEmpty
    · rw [if_pos hep] at h
      exact absurd h (by simp)
    · rw [if_neg hep] at h
      have : mergeGo size (withSep sep (pySplit sep frag)) [] = out := by
        simpa only [Except.ok.injEq] using h
      subst this
      rw [mergeGo_join, pySplit, withSep_pySplitGo_join]
      simp

/-- A successful round preserves the concatenation of the fragments. -/
theorem roundGo_join (size : Nat) (sep : Str) :
    ∀ frags out, roundGo size sep frags = .ok out → out.flatten = frags.flatten := by
  intro frags
  induction frags with
  | nil =>
    intro out h
    have : ([] : List Str) = out := by
      simpa only [roundGo, Except.ok.injEq] using h
    subst this
    rfl
  | cons f rest ih =>
    intro out h
    rw [roundGo] at h
    cases hm : splitMerge size sep f with
    | error er => rw [hm, bindError] at h; exact absurd h (by simp)
    | ok m =>
      rw [hm, bindOk] at h
      cases hr : roundGo size sep rest with
      | error er => rw [hr, bindError] at h; exact absurd h (by simp)
      | ok r =>
        rw [hr, bindOk] at h
        have : m ++ r = out := by
          simpa only [pure, Except.pure, Except.ok.injEq] using h
        subst this
        rw [List.flatten_append, splitMerge_join size sep f m hm, ih r hr,
          List.flatten_cons]

/-- A successful separator loop preserves the concatenation of the
fragments. -/
theorem roundsGo_join (size : Nat) :
    ∀ seps frags out, roundsGo size seps frags = .ok out → out.flatten = frags.flatten := by
  intro seps
  induction seps with
  | nil =>
    intro frags out h
    have : frags = out := by
      simpa only [roundsGo, Except.ok.injEq] using h
    subst this
    rfl
  | cons sep rest ih =>
    intro frags out h
    rw [roundsGo] at h
    cases hr : roundGo size sep frags with
    | error er => rw [hr, bindError] at h; exact absurd h (by simp)
    | ok nxt =>
      rw [hr, bindOk] at h
      by_cases hall : allSmall size nxt = true
      · rw [hall] at h
        simp only [if_true] at h
        have : nxt = out := by
          simpa only [pure, Except.pure, Except.ok.injEq] using h
        subst this
        exact roundGo_join size sep frags nxt hr
      · rw [if_neg (by simpa using hall)] at h
        rw [ih nxt out h]
        exact roundGo_join size sep frags nxt hr

/-- A non-empty prefix of a drop witnesses an occurrence within bounds. -/
theorem isPrefixOf_drop_bound (text sub : Str) (r : Nat) (hne : sub ≠ [])
    (h : sub.isPrefixOf (text.drop r) = true) : r + sub.length ≤ text.length := by
  have hpre := List.isPrefixOf_iff_prefix.mp h
  have hlen := hpre.length_le
  rw [List.length_drop] at hlen
  by_cases hr : r ≤ text.length
  · omega
  · exfalso
    have hdrop : text.drop r = [] := List.drop_eq_nil_of_le (by omega)
    rw [hdrop] at hpre
    exact hne (List.prefix_nil.mp hpre)

/-- The find scanner returns the first occurrence at or before any known
occurrence within its fuel. -/
theorem pyFindGo_found (text sub : Str) :
    ∀ fuel pos o, pos ≤ o → o < pos + fuel →
      sub.isPrefixOf (text.drop o) = true →
      ∃ r, pyFindGo text sub fuel pos = some r ∧ pos ≤ r ∧ r ≤ o ∧
        sub.isPrefixOf (text.drop r) = true := by
  intro fuel
  induction fuel with
  | zero => intro pos o h1 h2 _; omega
  | succ m ih =>
    intro pos o h1 h2 hocc
    rw [pyFindGo]
    by_cases hp : sub.isPrefixOf (text.drop pos) = true
    · rw [if_pos hp]
      exact ⟨pos, rfl, Nat.le_refl pos, h1, hp⟩
    · rw [if_neg hp]
      have hneq : pos ≠ o := fun he => hp (he ▸ hocc)
      obtain ⟨r, hr0, hr1, hr2, hr3⟩ := ih (pos + 1) o (by omega) (by omega) hocc
      exact ⟨r, hr0, by omega, hr2, hr3⟩

/-- Offset invariants of the recursive emission loop: when the text
decomposes as a processed prefix of length at least the cursor followed by
the remaining fragments, every emitted chunk has offsets within the
text. -/
theorem emitGo_offsets (text : Str) (md : Md) (noteId : Str) (total : Nat) :
    ∀ frags i pos q (pre : Str), text = pre ++ frags.flatten → pre.length = q →
      pos ≤ q →
      ∀ c ∈ emitGo text md noteId total frags i pos,
        0 ≤ c.start_char ∧ c.start_char ≤ c.end_char ∧
          c.end_char ≤ (text.length : Int) := by
  intro frags
  induction frags with
  | nil => intro i pos q pre _ _ _ c hc; rw [emitGo] at hc; simp at hc
  | cons f rest ih =>
    intro i pos q pre htext hq hposq c hc
    rw [emitGo] at hc
    by_cases he : (pyStrip f).isEmpty
    · simp only [he, if_true] at hc
      refine ih (i + 1) pos (q + f.length) (pre ++ f) ?_ ?_ (by omega) c hc
      · rw [htext, List.flatten_cons, List.append_assoc]
      · rw [List.length_append, hq]
    · simp only [he, Bool.false_eq_true, if_false] at hc
      obtain ⟨a, b, hdecomp⟩ := pyStrip_decomp f
      have hctne : pyStrip f ≠ [] := by
        intro hnil
        rw [hnil] at he
        simp at he
      have hsplit : text = (pre ++ a) ++ (pyStrip f ++ (b ++ rest.flatten)) := by
        rw [htext, List.flatten_cons]
        conv_lhs => rw [hdecomp]
        simp [List.append_assoc]
      have hocc : (pyStrip f).isPrefixOf (text.drop (q + a.length)) = true := by
        have hlen2 : (pre ++ a).length = q + a.length := by
          rw [List.length_append, hq]
        rw [hsplit, ← hlen2, List.drop_left]
        exact List.isPrefixOf_iff_prefix.mpr ⟨b ++ rest.flatten, rfl⟩
      have hobound : q + a.length + (pyStrip f).length ≤ text.length :=
        isPrefixOf_drop_bound text (pyStrip f) (q + a.length) hctne hocc
      obtain ⟨r, hfind, hr1, hr2, hr3⟩ := pyFindGo_found text (pyStrip f)
        (text.length + 1 - pos) pos (q + a.length) (by omega) (by omega) hocc
      have hres : resolvePos text (pyStrip f) pos = r := by
        rw [resolvePos]
        have hpf : pyFind text (pyStrip f) pos = some r := hfind
        rw [hpf]
      rw [hres] at hc
      have hrbound : r + (pyStrip f).length ≤ text.length :=
        isPrefixOf_drop_bound text (pyStrip f) r hctne hr3
      rcases List.mem_cons.mp hc with hc2 | hc2
      · rw [hc2]
        refine ⟨by positivity, ?_, ?_⟩
        · show ((r : Nat) : Int) ≤ ((r + (pyStrip f).length : Nat) : Int)
          push_cast; omega
        · show ((r + (pyStrip f).length : Nat) : Int) ≤ (text.length : Int)
          push_cast; omega
      · have hflen : a.length + (pyStrip f).length ≤ f.length := by
          conv_rhs => rw [hdecomp]
          rw [List.length_append, List.length_append]
          omega
        refine ih (i + 1) (r + (pyStrip f).length) (q + f.length) (pre ++ f) ?_ ?_
          (by omega) c hc2
        · rw [htext, List.flatten_cons, List.append_assoc]
        · rw [List.length_append, hq]

/-- Sum of sentence lengths plus one per sentence, the budget the
semantic loop spends per flush. -/
def gsum (ss : List Str) : Nat := (ss.map (fun s => s.length + 1)).sum

/-- gsum in terms of total length and count. -/
theorem gsum_eq (ss : List Str) :
    gsum ss = (ss.map List.length).sum + ss.length := by
  induction ss with
  | nil => rfl
  | cons s rest ih =>
    simp only [gsum, List.map_cons, List.sum_cons, List.length_cons] at *
    omega

/-- gsum of a cons. -/
theorem gsum_cons (s : Str) (rest : List Str) :
    gsum (s :: rest) = s.length + 1 + gsum rest := by
  simp only [gsum, List.map_cons, List.sum_cons]

/-- The sentence splitter consumes at least one character per boundary:
total sentence length plus sentence count is at most the input length
plus the accumulator plus one. -/
theorem semSplitGo_sum :
    ∀ s prev ws acc, ((semSplitGo s prev ws acc).map List.length).sum +
      (semSplitGo s prev ws acc).length ≤ s.length + acc.length + 1 := by
  intro s
  induction s with
  | nil =>
    intro prev ws acc
    simp [semSplitGo]
  | cons c rest ih =>
    intro prev ws acc
    simp only [semSplitGo]
    cases ws with
    | true =>
      simp only [if_true]
      by_cases hsp : isPySpace c = true
      · rw [if_pos hsp]
        have := ih c true acc
        simp only [List.length_cons]
        omega
      · rw [if_neg hsp]
        have := ih c false [c]
        simp only [List.length_cons, List.length_nil] at *
        omega
    | false =>
      simp only [Bool.false_eq_true, if_false]
      by_cases htr : (isPySpace c && isSentEnd prev) = true
      · rw [if_pos htr]
        have := ih c true []
        simp only [List.map_cons, List.sum_cons, List.length_cons,
          List.length_reverse, List.length_nil] at *
        omega
      · rw [if_neg htr]
        have := ih c false (c :: acc)
        simp only [List.length_cons, List.length_nil] at *
        omega

/-- Offset bounds for the semantic loop when the buffer ends in the
appended space: offsets are ordered and the next cursor budget bounds
every end offset. -/
theorem semLoop_bounds (size : Nat) (md : Md) (noteId : Str) :
    ∀ ss cs (u : Str) idx l,
      semLoop size md noteId ss cs (u ++ [' ']) idx = .ok l →
      ∀ c ∈ l, 0 ≤ c.start_char ∧ c.start_char ≤ c.end_char ∧
        c.end_char + 1 ≤ ((cs + (u ++ [' ']).length + gsum ss : Nat) : Int) := by
  intro ss
  induction ss with
  | nil =>
    intro cs u idx l h c hc
    rw [semLoop] at h
    have hne : (u ++ [' ']).isEmpty = false := by
      simp
    simp only [hne, Bool.false_eq_true, if_false, Except.ok.injEq] at h
    subst h
    rw [List.mem_singleton.mp hc]
    have hct : (pyStrip (u ++ [' '])).length ≤ u.length := by
      rw [pyStrip_append_space u ' ' (by rfl)]
      exact pyStrip_length_le u
    refine ⟨by positivity, ?_, ?_⟩
    · show ((cs : Nat) : Int) ≤ ((cs + (pyStrip (u ++ [' '])).length : Nat) : Int)
      push_cast; omega
    · show ((cs + (pyStrip (u ++ [' '])).length : Nat) : Int) + 1 ≤ _
      simp only [gsum, List.map_nil, List.sum_nil, List.length_append,
        List.length_cons, List.length_nil]
      push_cast
      omega
  | cons s rest ih =>
    intro cs u idx l h c hc
    rw [semLoop] at h
    by_cases hfit : (u ++ [' ']).length + s.length ≤ size
    · rw [if_pos hfit] at h
      have hb := ih cs ((u ++ [' ']) ++ s) idx l h c hc
      obtain ⟨b0, b1, b2⟩ := hb
      refine ⟨b0, b1, ?_⟩
      refine le_trans b2 ?_
      rw [gsum_cons]
      push_cast
      simp only [List.length_append, List.length_singleton]
      push_cast
      omega
    · rw [if_neg hfit] at h
      have hne : (u ++ [' ']).isEmpty = false := by simp
      simp only [hne, Bool.false_eq_true, if_false] at h
      have hct : (pyStrip (u ++ [' '])).length ≤ u.length := by
        rw [pyStrip_append_space u ' ' (by rfl)]
        exact pyStrip_length_le u
      cases hrec : semLoop size md noteId rest
          (cs + (pyStrip (u ++ [' '])).length + 1) (s ++ [' ']) (idx + 1) with
      | error er => rw [hrec, bindError] at h; exact absurd h (by simp)
      | ok r2 =>
        rw [hrec, bindOk] at h
        have hl : ({ content := pyStrip (u ++ [' '])
                   , chunk_id := chunkIdOf noteId idx
                   , start_char := (cs : Int)
                   , end_char := ((cs + (pyStrip (u ++ [' '])).length : Nat) : Int)
                   , metadata := metaSemantic md idx
                   , token_count := some (estimateTokens (pyStrip (u ++ [' ']))) } :
                     TextChunk) :: r2 = l := by
          simpa only [pure, Except.pure, Except.ok.injEq] using h
        rw [← hl] at hc
        rcases List.mem_cons.mp hc with hc2 | hc2
        · rw [hc2]
          refine ⟨by positivity, ?_, ?_⟩
          · show ((cs : Nat) : Int) ≤ ((cs + (pyStrip (u ++ [' '])).length : Nat) : Int)
            push_cast; omega
          · show ((cs + (pyStrip (u ++ [' '])).length : Nat) : Int) + 1 ≤ _
            rw [gsum_cons]
            push_cast
            simp only [List.length_append, List.length_singleton]
            push_cast
            omega
        · have hb := ih (cs + (pyStrip (u ++ [' '])).length + 1) s (idx + 1) r2 hrec c hc2
          obtain ⟨b0, b1, b2⟩ := hb
          refine ⟨b0, b1, ?_⟩
          refine le_trans b2 ?_
          rw [gsum_cons]
          push_cast
          simp only [List.length_append, List.length_singleton]
          push_cast
          omega

/-- Offset bounds for an ok run of the semantic strategy. -/
theorem semanticChunk_offsets (size : Nat) (md : Md) (noteId text : Str) :
    ∀ l, semanticChunk size md noteId text = .ok l →
      ∀ c ∈ l, 0 ≤ c.start_char ∧ c.start_char ≤ c.end_char ∧
        c.end_char ≤ (text.length : Int) := by
  intro l h c hc
  rw [semanticChunk] at h
  have hg : gsum (semSplit text) ≤ text.length + 1 := by
    rw [gsum_eq, semSplit]
    have := semSplitGo_sum text ' ' false []
    simpa using this
  cases hss : semSplit text with
  | nil =>
    rw [hss] at h
    rw [semLoop] at h
    simp only [List.isEmpty_nil, if_true, Except.ok.injEq] at h
    subst h
    simp at hc
  | cons s1 srest =>
    rw [hss] at h
    rw [semLoop] at h
    by_cases hfit : (List.length ([] : Str)) + s1.length ≤ size
    · rw [if_pos hfit] at h
      have h2 : semLoop size md noteId srest 0 (s1 ++ [' ']) 0 = .ok l := by
        simpa using h
      obtain ⟨b0, b1, b2⟩ := semLoop_bounds size md noteId srest 0 s1 0 l h2 c hc
      refine ⟨b0, b1, ?_⟩
      rw [hss, gsum_cons] at hg
      simp only [List.length_append, List.length_singleton] at b2
      push_cast at b2
      omega
    · rw [if_neg hfit] at h
      simp only [List.isEmpty_nil, if_true] at h
      exact absurd h (by simp)

/-- C5 counterexample: the fixed strategy records end_char = start +
max_chunk_size even when the window overruns the text, so end_char = 5
exceeds len(source_text) = 3. -/
theorem c5_fixed_end_beyond_len :
    Except.map (List.map (fun c => (c.start_char, c.end_char)))
        (chunkText 9 ⟨5, 2, sFixed⟩ mdNone [] (("abc").data)) =
        .ok [(0, 5)] ∧
      (("abc").data).length = 3 ∧ (3 : Int) < 5 := by
  exact ⟨rfl, rfl, by decide⟩

/-- C5 amended: the offset bounds 0 <= start_char <= end_char <=
len(source_text) hold on normal returns of the page, recursive and
semantic strategies; for the fixed strategy (with overlap at most 1, so
that the cursor cannot move backward) only 0 <= start_char < end_char <=
len(source_text) + max_chunk_size - 1 holds, since the window end is
recorded unclamped. -/
theorem c5_amended_offsets (fuel size ov : Nat) (md : Md) (noteId text : Str)
    (hsize : 1 ≤ size) :
    (∀ c ∈ pageChunk md noteId text,
      0 ≤ c.start_char ∧ c.start_char ≤ c.end_char ∧
        c.end_char ≤ (text.length : Int)) ∧
    (∀ l, recursiveChunk size md noteId text = .ok l → ∀ c ∈ l,
      0 ≤ c.start_char ∧ c.start_char ≤ c.end_char ∧
        c.end_char ≤ (text.length : Int)) ∧
    (∀ l, semanticChunk size md noteId text = .ok l → ∀ c ∈ l,
      0 ≤ c.start_char ∧ c.start_char ≤ c.end_char ∧
        c.end_char ≤ (text.length : Int)) ∧
    (ov ≤ 1 → ∀ l, fixedChunk fuel size ov md noteId text = .ok l → ∀ c ∈ l,
      0 ≤ c.start_char ∧ c.start_char < c.end_char ∧
        c.end_char ≤ (text.length : Int) + size - 1) := by
  refine ⟨?_, ?_, ?_, ?_⟩
  · intro c hc
    rw [pageChunk] at hc
    by_cases he : (pyStrip text).isEmpty
    · simp [he] at hc
    · simp only [he, Bool.false_eq_true, if_false, List.mem_singleton] at hc
      subst hc
      refine ⟨le_refl 0, by positivity, ?_⟩
      show ((pyStrip text).length : Int) ≤ (text.length : Int)
      exact_mod_cast pyStrip_length_le text
  · intro l h c hc
    rw [recursiveChunk] at h
    cases hr : roundsGo size separators [text] with
    | error er => rw [hr, bindError] at h; exact absurd h (by simp)
    | ok frags =>
      rw [hr, bindOk] at h
      have hl : emitGo text md noteId frags.length frags 0 0 = l := by
        simpa only [pure, Except.pure, Except.ok.injEq] using h
      rw [← hl] at hc
      have hjoin : frags.flatten = text := by
        have := roundsGo_join size separators [text] frags hr
        simpa using this
      exact emitGo_offsets text md noteId frags.length frags 0 0 0 []
        (by rw [hjoin]; rfl) rfl (Nat.le_refl 0) c hc
  · exact semanticChunk_offsets size md noteId text
  · intro hov l h c hc
    rw [fixedChunk] at h
    by_cases hlen : (0 : Int) < (text.length : Int)
    · rw [if_pos hlen] at h
      obtain ⟨_, _, hoff⟩ := fixedLoop_inv size ov md noteId text hsize fuel 0 0 l h
      obtain ⟨hmem, _⟩ := hoff hov (le_refl 0) hlen
      obtain ⟨_, m2, m3, m4⟩ := hmem c hc
      exact ⟨m2, m3, m4⟩
    · rw [if_neg hlen] at h
      have hl : ([] : List TextChunk) = l := by
        simpa only [Except.ok.injEq] using h
      subst hl
      simp at hc

/-- Witness for C5 amended: a concrete ok run of the semantic strategy
whose offsets respect the bounds. -/
theorem c5_amended_offsets_witness :
    List.all ((semanticChunk 10 mdNone [] (("a. b.").data)).toOption.getD [])
      (fun c => decide (0 ≤ c.start_char) && decide (c.start_char ≤ c.end_char) &&
        decide (c.end_char ≤ (((("a. b.").data).length : Nat) : Int))) = true := by
  rw [List.all_eq_true]
  intro c hc
  obtain ⟨b0, b1, b2⟩ :=
    (c5_amended_offsets 0 10 2 mdNone [] (("a. b.").data) (by decide)).2.2.1
      ((semanticChunk 10 mdNone [] (("a. b.").data)).toOption.getD []) rfl c hc
  rw [Bool.and_eq_true, Bool.and_eq_true]
  exact ⟨⟨decide_eq_true b0, decide_eq_true b1⟩, decide_eq_true b2⟩

end Mneme
